import Mathlib

/-
Verification of the plan/execute/reflect agent loop of `enhanced_agents.py`.

The embedding mirrors `EnhancedAgent` and its collaborators.  The external
Completion Service (an LLM endpoint) is modelled as an oracle: each call site
receives either a successfully JSON-decoded value (`Resp.decoded`) or the raw
sanitized text when `json.loads` raises `JSONDecodeError`
(`Resp.undecodable`).  Python floats are modelled as rationals; Python
`json.loads` results are modelled by the `Json` inductive; a Python dict is an
association list.  Statements that Python would abort with an uncaught
exception (AttributeError / TypeError / ValueError / UnboundLocalError) are
modelled by returning `none`: an iteration either completes and yields the
next state, or the whole `run` dies with no result.
-/

namespace PlanAgent

/-- A decoded JSON value, the result type of Python's `json.loads`. -/
inductive Json where
  | null  : Json
  | bool  : Bool → Json
  | num   : ℚ → Json
  | str   : String → Json
  | arr   : List Json → Json
  | obj   : List (String × Json) → Json

/-- Python `dict.get(k, d)` on a decoded JSON object. -/
def jget (fs : List (String × Json)) (k : String) (d : Json) : Json :=
  (fs.lookup k).getD d

/-- Numeric coercion used where Python formats/adds a value as a float
(`f"{x:.2f}"`, `min`/`max`, `+`).  Python bools are ints, so they format and
add fine; any other non-numeric value raises there. -/
def asNum : Json → Option ℚ
  | .num q  => some q
  | .bool b => some (if b then 1 else 0)
  | _       => none

/-- Python `j == s` for a string literal `s`: true only on equal strings. -/
def isStrEq (j : Json) (s : String) : Bool :=
  match j with
  | .str t => t == s
  | _ => false

/-- Python truthiness of a decoded JSON value. -/
def truthy : Json → Bool
  | .null    => false
  | .bool b  => b
  | .num q   => q ≠ 0
  | .str s   => s ≠ ""
  | .arr xs  => !xs.isEmpty
  | .obj fs  => !fs.isEmpty

/-- Whether `", ".join(v[:2])` succeeds on a truthy `v`
(`_handle_reflection`'s strengths/weaknesses prints): strings always join
(chars are strings); lists join when the sliced elements are strings;
anything else raises TypeError.  Falsy values skip the print entirely. -/
def sliceJoinOk (j : Json) : Bool :=
  !truthy j ||
    (match j with
     | .str _  => true
     | .arr xs => (xs.take 2).all fun x => match x with | .str _ => true | _ => false
     | _       => false)

/-- One Completion-Service call as seen after the Markdown-fence cleanup:
either the sanitized text decoded as JSON, or the raw sanitized text when
`json.loads` failed. -/
inductive Resp where
  | decoded     : Json → Resp
  | undecodable : String → Resp

/-- One entry of `state.completed_tasks` (`_handle_execution`).  On the
success path all six keys are present; on the decode-failure path only
`task`, `results`, `quality_score` are (the others are `none` = absent). -/
structure TaskResult where
  task              : Json
  execution_process : Option Json
  results           : Json
  challenges        : Option Json
  quality_score     : ℚ
  recommendations   : Option Json

/-- One entry of `state.reflection_history` (`_handle_reflection`).  Python
stores `json.dumps` of this record; we store the record itself. -/
structure ReflectionSummary where
  assessment      : Json
  strengths       : Json
  weaknesses      : Json
  recommendations : Json
  should_replan   : Json

/-- Model of `EnhancedAgentState.__init__`.  `messages` is omitted: it is append-only
and never read back by any code path. -/
structure EnhancedAgentState where
  objective          : String
  plan               : List Json
  completed_tasks    : List TaskResult
  reflection_history : List ReflectionSummary
  replan_count       : ℕ
  current_focus      : String
  confidence_score   : ℚ
  status             : Json

/-- The state built by `EnhancedAgentState.__init__(objective)`. -/
def initState (objective : String) : EnhancedAgentState :=
  { objective := objective
    plan := []
    completed_tasks := []
    reflection_history := []
    replan_count := 0
    current_focus := ""
    confidence_score := 0
    status := .str "initializing" }

/-- Model of `LLMController.decide_next_action`: returns the decoded decision, or the
documented default on `JSONDecodeError`.  (The decoded value may be any JSON;
`run`'s subsequent `.get` calls raise if it is not an object.) -/
def decide_next_action (r : Resp) : Json :=
  match r with
  | .decoded j => j
  | .undecodable _ =>
      .obj [("action", .str "reflect"),
            ("reasoning", .str "Failed to parse decision, defaulting to reflection"),
            ("parameters", .obj []),
            ("confidence", .num ((3 : ℚ)/10)),
            ("urgency", .str "medium")]

/-- Model of `EnhancedAgent._handle_planning`.  On decode failure the state is left
unchanged.  On success the plan is replaced wholesale by the decoded `plan`
value (defaulting to `[]` when the key is absent) and `replan_count` is
incremented when replanning.  A decoded non-object raises at
`plan_data.get`; a non-array `plan` value is modelled as an error as well
(Python raises at the subsequent `len(state.plan)` for most non-sequence
values). -/
def handle_planning (is_replan : Bool) (r : Resp) (st : EnhancedAgentState) :
    Option EnhancedAgentState :=
  match r with
  | .undecodable _ => some st
  | .decoded (.obj fs) =>
      match jget fs "plan" (.arr []) with
      | .arr xs =>
          some { st with
                   plan := xs
                   replan_count := st.replan_count + (if is_replan then 1 else 0) }
      | _ => none
  | .decoded _ => none

/-- Model of `EnhancedAgent._handle_execution`.  Empty plan: bootstrap via
`_handle_planning` (with the planning tool's response) and return.  All plan
entries already executed: plain return.  Otherwise execute the plan entry at
index `len(completed_tasks)` and append exactly one TaskResult — the decoded
record with per-key defaults, or the raw-text fallback with
`quality_score = 0.3` when decoding failed. -/
def handle_execution (planResp execResp : Resp) (st : EnhancedAgentState) :
    Option EnhancedAgentState :=
  if st.plan.isEmpty then handle_planning false planResp st
  else if h : st.completed_tasks.length < st.plan.length then
    let current := st.plan.get ⟨st.completed_tasks.length, h⟩
    match execResp with
    | .undecodable raw =>
        some { st with
                 completed_tasks := st.completed_tasks ++
                   [{ task := current
                      execution_process := none
                      results := .str raw
                      challenges := none
                      quality_score := (3 : ℚ)/10
                      recommendations := none }] }
    | .decoded (.obj fs) =>
        match asNum (jget fs "quality_score" (.num ((1 : ℚ)/2))) with
        | some qs =>
            some { st with
                     completed_tasks := st.completed_tasks ++
                       [{ task := current
                          execution_process := some (jget fs "execution_process" (.str ""))
                          results := jget fs "results" (.str "")
                          challenges := some (jget fs "challenges" (.str ""))
                          quality_score := qs
                          recommendations := some (jget fs "recommendations" (.str "")) }] }
        | none => none
    | .decoded _ => none
  else some st

/-- Model of `EnhancedAgent._handle_reflection`.  Empty history: return before calling
the tool.  Decode failure: state unchanged.  Success: append the summary and
clamp `confidence_score + confidence_adjustment` into `[0,1]`; a non-numeric
adjustment raises at the addition, and non-joinable truthy
strengths/weaknesses raise at the summary prints. -/
def handle_reflection (r : Resp) (st : EnhancedAgentState) :
    Option EnhancedAgentState :=
  if st.completed_tasks.isEmpty then some st
  else
    match r with
    | .undecodable _ => some st
    | .decoded (.obj fs) =>
        let summary : ReflectionSummary :=
          { assessment := jget fs "assessment" (.str "")
            strengths := jget fs "strengths" (.arr [])
            weaknesses := jget fs "weaknesses" (.arr [])
            recommendations := jget fs "recommendations" (.arr [])
            should_replan := jget fs "should_replan" (.bool false) }
        match asNum (jget fs "confidence_adjustment" (.num 0)) with
        | some adj =>
            if sliceJoinOk summary.strengths && sliceJoinOk summary.weaknesses then
              some { st with
                       reflection_history := st.reflection_history ++ [summary]
                       confidence_score := max 0 (min 1 (st.confidence_score + adj)) }
            else none
        | none => none
    | .decoded _ => none

/-- The Completion-Service responses an iteration of `run` may consume: the
controller's decision plus the response of whichever tool the dispatched
branch invokes (planning is consulted both by plan/replan and by the
empty-plan execute bootstrap). -/
structure IterEnv where
  decision : Resp
  planResp : Resp
  execResp : Resp
  reflResp : Resp

/-- One iteration of the `while` loop in `EnhancedAgent.run` (lines 307-346):
ask the controller, record `confidence` and `status`, dispatch.  Returns the
updated state, the `action` value, and whether the iteration hit the
`complete` break.  `none` models an uncaught exception (non-object decision
at `.get`, non-numeric confidence at the `:.2f` format, or a handler
raising). -/
def iterStep (e : IterEnv) (st : EnhancedAgentState) :
    Option (EnhancedAgentState × Json × Bool) :=
  match decide_next_action e.decision with
  | .obj fs =>
      let action := jget fs "action" (.str "reflect")
      match asNum (jget fs "confidence" (.num ((1 : ℚ)/2))) with
      | none => none
      | some conf =>
          let st1 := { st with confidence_score := conf, status := action }
          if isStrEq action "plan" then
            (handle_planning false e.planResp st1).map (fun s => (s, action, false))
          else if isStrEq action "replan" then
            (handle_planning true e.planResp st1).map (fun s => (s, action, false))
          else if isStrEq action "execute" then
            (handle_execution e.planResp e.execResp st1).map (fun s => (s, action, false))
          else if isStrEq action "reflect" then
            (handle_reflection e.reflResp st1).map (fun s => (s, action, false))
          else if isStrEq action "complete" then
            some (st1, action, true)
          else
            (handle_reflection e.reflResp st1).map (fun s => (s, action, false))
  | _ => none

/-- The session state after `n` loop iterations of `run` driven by the
response trace `env` (iteration `k` consumes `env k`), ignoring the
`complete` break — used to state reachability invariants. -/
def iterateN (env : ℕ → IterEnv) (obj : String) : ℕ → Option EnhancedAgentState
  | 0 => some (initState obj)
  | n + 1 =>
      match iterateN env obj n with
      | some st => (iterStep (env n) st).map (fun x => x.1)
      | none => none

/-- The record returned by `EnhancedAgent.run`. -/
structure RunResult where
  objective        : String
  completed_tasks  : List TaskResult
  reflections      : List ReflectionSummary
  final_confidence : ℚ
  iterations_used  : ℕ
  status           : String

/-- The result dict built at the end of `run` (lines 352-359); `act` is the
`action` variable left over from the last executed iteration. -/
def mkResult (st : EnhancedAgentState) (used : ℕ) (act : Json) : RunResult :=
  { objective := st.objective
    completed_tasks := st.completed_tasks
    reflections := st.reflection_history
    final_confidence := st.confidence_score
    iterations_used := used
    status := if isStrEq act "complete" then "completed" else "max_iterations_reached" }

/-- The `while iteration_count < max_iterations` loop of `run`.  `fuel` is
the number of remaining iterations, `used` the iterations already executed,
`lastAction` the current value of the local variable `action` (`none` =
never assigned: building the result dict then raises UnboundLocalError,
modelled as `none`). -/
def runLoop (env : ℕ → IterEnv) (st : EnhancedAgentState) (fuel used : ℕ)
    (lastAction : Option Json) : Option RunResult :=
  match fuel with
  | 0 =>
      match lastAction with
      | none => none
      | some act => some (mkResult st used act)
  | f + 1 =>
      match iterStep (env used) st with
      | none => none
      | some (st', act, brk) =>
          if brk then some (mkResult st' (used + 1) act)
          else runLoop env st' f (used + 1) (some act)

/-- Model of `EnhancedAgent.run(objective, max_iterations)` driven by the response
trace `env`.  A non-positive `max_iterations` runs the loop zero times. -/
def run (env : ℕ → IterEnv) (objective : String) (max_iterations : ℤ) :
    Option RunResult :=
  runLoop env (initState objective) max_iterations.toNat 0 none

/-- The plan a planning response would install: the decoded object's `plan`
value when it is an array (defaulting to the empty array when the key is
absent); `none` when the response is undecodable or would raise. -/
def installedPlan : Resp → Option (List Json)
  | .decoded (.obj fs) =>
      match jget fs "plan" (.arr []) with
      | .arr xs => some xs
      | _ => none
  | _ => none

/-- The confidence `run` records into the state from this iteration's
decision (the decoded decision's `confidence`, defaulting to `0.5`; `0.3`
for the undecodable-decision default); `none` when the iteration would raise
before recording it. -/
def recordedConfidence (e : IterEnv) : Option ℚ :=
  match decide_next_action e.decision with
  | .obj fs => asNum (jget fs "confidence" (.num ((1 : ℚ)/2)))
  | _ => none

/-- The `action` value `run` extracts from this iteration's decision. -/
def actionOf (e : IterEnv) : Option Json :=
  match decide_next_action e.decision with
  | .obj fs => some (jget fs "action" (.str "reflect"))
  | _ => none

/-- Complete characterization of `_handle_planning`: it either leaves the
state unchanged (decode failure) or replaces the plan wholesale with the
decoded `plan` array, bumping `replan_count` when replanning. -/
theorem handle_planning_spec {ir : Bool} {r : Resp} {st st' : EnhancedAgentState}
    (h : handle_planning ir r st = some st') :
    st' = st ∨
      ∃ xs, installedPlan r = some xs ∧
        st' = { st with
                  plan := xs
                  replan_count := st.replan_count + (if ir then 1 else 0) } := by
  cases r with
  | undecodable raw =>
      simp only [handle_planning, Option.some.injEq] at h
      exact Or.inl h.symm
  | decoded j =>
      cases j with
      | obj fs =>
          simp only [handle_planning] at h
          split at h
          · rename_i xs hxs
            refine Or.inr ⟨xs, ?_, ?_⟩
            · simp [installedPlan, hxs]
            · exact (Option.some.injEq _ _ ▸ h).symm
          · exact absurd h (by simp)
      | null => exact absurd h (by simp [handle_planning])
      | bool b => exact absurd h (by simp [handle_planning])
      | num q => exact absurd h (by simp [handle_planning])
      | str s => exact absurd h (by simp [handle_planning])
      | arr xs => exact absurd h (by simp [handle_planning])

/-- Complete characterization of `_handle_execution`: bootstrap-plan when
the plan is empty; no-op when every plan entry is executed; otherwise append
exactly one TaskResult for the plan entry at index `len(completed_tasks)`. -/
theorem handle_execution_spec {pr er : Resp} {st st' : EnhancedAgentState}
    (h : handle_execution pr er st = some st') :
    (st.plan = [] ∧ handle_planning false pr st = some st') ∨
    (st.plan ≠ [] ∧ st.plan.length ≤ st.completed_tasks.length ∧ st' = st) ∨
    (∃ tr, st.completed_tasks.length < st.plan.length ∧
       tr.task = st.plan.getD st.completed_tasks.length .null ∧
       st' = { st with completed_tasks := st.completed_tasks ++ [tr] }) := by
  unfold handle_execution at h
  split at h
  · rename_i hemp
    exact Or.inl ⟨List.isEmpty_iff.mp hemp, h⟩
  · rename_i hemp
    split at h
    · rename_i hlt
      refine Or.inr (Or.inr ?_)
      cases er with
      | undecodable raw =>
          simp only [Option.some.injEq] at h
          exact ⟨_, hlt, by simp [List.getD_eq_getElem _ _ hlt, List.get_eq_getElem, List.getElem?_eq_getElem hlt], h.symm⟩
      | decoded j =>
          cases j with
          | obj fs =>
              simp only at h
              split at h
              · rename_i qs hqs
                simp only [Option.some.injEq] at h
                exact ⟨_, hlt, by simp [List.getD_eq_getElem _ _ hlt, List.get_eq_getElem, List.getElem?_eq_getElem hlt], h.symm⟩
              · exact absurd h (by simp)
          | null => exact absurd h (by simp)
          | bool b => exact absurd h (by simp)
          | num q => exact absurd h (by simp)
          | str s => exact absurd h (by simp)
          | arr xs => exact absurd h (by simp)
    · rename_i hge
      simp only [Option.some.injEq] at h
      refine Or.inr (Or.inl ⟨fun hnil => hemp (by simp [hnil]), ?_, h.symm⟩)
      omega

/-- Complete characterization of `_handle_reflection`: no-op when the history
is empty or decoding failed, otherwise append one ReflectionSummary and clamp
the adjusted confidence into `[0,1]`; everything else is untouched. -/
theorem handle_reflection_spec {r : Resp} {st st' : EnhancedAgentState}
    (h : handle_reflection r st = some st') :
    st' = st ∨
      ∃ summ adj,
        st' = { st with
                  reflection_history := st.reflection_history ++ [summ]
                  confidence_score := max 0 (min 1 (st.confidence_score + adj)) } := by
  unfold handle_reflection at h
  split at h
  · simp only [Option.some.injEq] at h
    exact Or.inl h.symm
  · cases r with
    | undecodable raw =>
        simp only [Option.some.injEq] at h
        exact Or.inl h.symm
    | decoded j =>
        cases j with
        | obj fs =>
            simp only at h
            split at h
            · rename_i adj hadj
              split at h
              · simp only [Option.some.injEq] at h
                exact Or.inr ⟨_, adj, h.symm⟩
              · exact absurd h (by simp)
            · exact absurd h (by simp)
        | null => exact absurd h (by simp)
        | bool b => exact absurd h (by simp)
        | num q => exact absurd h (by simp)
        | str s => exact absurd h (by simp)
        | arr xs => exact absurd h (by simp)

/-- Complete characterization of one loop iteration: the decision decodes to
an object, a numeric confidence is recorded together with the action into the
state, and then exactly one of the five dispatch branches runs (unknown
actions fall through to reflection). -/
theorem iterStep_spec {e : IterEnv} {st st' : EnhancedAgentState} {a : Json} {brk : Bool}
    (h : iterStep e st = some (st', a, brk)) :
    ∃ fs conf, decide_next_action e.decision = .obj fs ∧
      a = jget fs "action" (.str "reflect") ∧
      asNum (jget fs "confidence" (.num ((1 : ℚ)/2))) = some conf ∧
      ((isStrEq a "plan" = true ∧ brk = false ∧
          handle_planning false e.planResp { st with confidence_score := conf, status := a } = some st') ∨
       (isStrEq a "replan" = true ∧ brk = false ∧
          handle_planning true e.planResp { st with confidence_score := conf, status := a } = some st') ∨
       (isStrEq a "execute" = true ∧ brk = false ∧
          handle_execution e.planResp e.execResp { st with confidence_score := conf, status := a } = some st') ∨
       (brk = false ∧
          handle_reflection e.reflResp { st with confidence_score := conf, status := a } = some st') ∨
       (isStrEq a "complete" = true ∧ brk = true ∧
          st' = { st with confidence_score := conf, status := a })) := by
  unfold iterStep at h
  split at h
  · rename_i fs hfs
    split at h
    · exact absurd h (by simp)
    · rename_i conf hconf
      simp only [] at h
      split at h
      · rename_i hp
        obtain ⟨s, hs, heq⟩ := Option.map_eq_some'.mp h
        injection heq with h1 h23; injection h23 with h2 h3
        subst h1; subst h2; subst h3
        exact ⟨fs, conf, hfs, rfl, hconf, Or.inl ⟨hp, rfl, hs⟩⟩
      · split at h
        · rename_i hp
          obtain ⟨s, hs, heq⟩ := Option.map_eq_some'.mp h
          injection heq with h1 h23; injection h23 with h2 h3
          subst h1; subst h2; subst h3
          exact ⟨fs, conf, hfs, rfl, hconf, Or.inr (Or.inl ⟨hp, rfl, hs⟩)⟩
        · split at h
          · rename_i hp
            obtain ⟨s, hs, heq⟩ := Option.map_eq_some'.mp h
            injection heq with h1 h23; injection h23 with h2 h3
            subst h1; subst h2; subst h3
            exact ⟨fs, conf, hfs, rfl, hconf, Or.inr (Or.inr (Or.inl ⟨hp, rfl, hs⟩))⟩
          · split at h
            · obtain ⟨s, hs, heq⟩ := Option.map_eq_some'.mp h
              injection heq with h1 h23; injection h23 with h2 h3
              subst h1; subst h2; subst h3
              exact ⟨fs, conf, hfs, rfl, hconf, Or.inr (Or.inr (Or.inr (Or.inl ⟨rfl, hs⟩)))⟩
            · split at h
              · rename_i hp
                simp only [Option.some.injEq, Prod.mk.injEq] at h
                obtain ⟨h1, h2, h3⟩ := h
                subst h2; subst h3
                exact ⟨fs, conf, hfs, rfl, hconf,
                  Or.inr (Or.inr (Or.inr (Or.inr ⟨hp, rfl, h1.symm⟩)))⟩
              · obtain ⟨s, hs, heq⟩ := Option.map_eq_some'.mp h
                injection heq with h1 h23; injection h23 with h2 h3
                subst h1; subst h2; subst h3
                exact ⟨fs, conf, hfs, rfl, hconf, Or.inr (Or.inr (Or.inr (Or.inl ⟨rfl, hs⟩)))⟩
  · exact absurd h (by simp)

/-!  The Response Sanitizer: the Markdown-fence cleanup applied to every
Completion-Service response before `json.loads`
(`PlanningTool._run` et al.):

    raw_content = result.content.strip()
    cleaned = re.sub(r"^фенс(?:json)?\s*", "", raw_content)
    cleaned = re.sub(r"фенс$", "", cleaned).strip()

(фенс = three backticks).  Modelled on lists of characters. -/

/-- The backtick character. -/
def btick : Char := Char.ofNat 96

/-- Python's ASCII whitespace, as recognized by both `str.strip()` and the
regex class `\s` on the ASCII range (the inputs of interest are ASCII). -/
def pyWS (c : Char) : Bool :=
  c = ' ' || c = '\t' || c = '\n' || c = '\r' || c = '\x0b' || c = '\x0c'

/-- Python `str.strip()`. -/
def pstrip (l : List Char) : List Char :=
  ((l.dropWhile pyWS).reverse.dropWhile pyWS).reverse

/-- The leading fence marker: three backticks. -/
def fenceMark : List Char := [btick, btick, btick]

/-- Model of `re.sub(r"^фенс(?:json)?\s*", "", l)`: if the text starts with a fence
marker, drop it, then an optional `json` language tag, then any whitespace
run. -/
def stripLeadFence (l : List Char) : List Char :=
  if l.take 3 = fenceMark then
    let r := l.drop 3
    let r := if r.take 4 = ['j', 's', 'o', 'n'] then r.drop 4 else r
    r.dropWhile pyWS
  else l

/-- Model of `re.sub(r"фенс$", "", l)` on text with no trailing whitespace: if the
text ends with a fence marker, drop those three characters. -/
def stripTrailFence (l : List Char) : List Char :=
  if l.reverse.take 3 = fenceMark then (l.reverse.drop 3).reverse else l

/-- The full sanitizer: strip, remove a leading fence (with optional
language tag), remove a trailing fence, strip again. -/
def sanitize (l : List Char) : List Char :=
  pstrip (stripTrailFence (stripLeadFence (pstrip l)))

/-- Dropping a matched prefix twice drops it once. -/
theorem dropWhile_dropWhile (p : Char → Bool) (l : List Char) :
    (l.dropWhile p).dropWhile p = l.dropWhile p := by
  induction l with
  | nil => rfl
  | cons a t ih =>
      by_cases hp : p a = true
      · simp [List.dropWhile_cons, hp, ih]
      · simp [List.dropWhile_cons, hp]

/-- The head surviving `dropWhile` does not satisfy the predicate. -/
theorem head?_dropWhile_false {p : Char → Bool} {l : List Char} {a : Char}
    (h : (l.dropWhile p).head? = some a) : p a = false := by
  induction l with
  | nil => simp at h
  | cons b t ih =>
      by_cases hp : p b = true
      · exact ih (by simpa [List.dropWhile_cons, hp] using h)
      · simp [List.dropWhile_cons, hp] at h
        simp [h ▸ hp]

/-- A list whose head does not satisfy the predicate is fixed by
`dropWhile`. -/
theorem dropWhile_of_head?_false {p : Char → Bool} {l : List Char} {a : Char}
    (h : l.head? = some a) (ha : p a = false) : l.dropWhile p = l := by
  cases l with
  | nil => simp at h
  | cons b t =>
      simp only [List.head?_cons, Option.some.injEq] at h
      simp [List.dropWhile_cons, h ▸ ha]

/-- A nonempty `dropWhile` result keeps the original last element. -/
theorem getLast?_dropWhile (p : Char → Bool) (l : List Char)
    (h : l.dropWhile p ≠ []) : (l.dropWhile p).getLast? = l.getLast? := by
  conv_rhs => rw [← List.takeWhile_append_dropWhile p l]
  exact (List.getLast?_append_of_ne_nil _ h).symm

/-- Python `str.strip()` is idempotent. -/
theorem pstrip_pstrip (l : List Char) : pstrip (pstrip l) = pstrip l := by
  unfold pstrip
  set n := ((l.dropWhile pyWS).reverse.dropWhile pyWS) with hn
  by_cases hne : n = []
  · rw [hne]
    rfl
  · have hdwl : l.dropWhile pyWS ≠ [] := by
      intro hnil
      apply hne
      rw [hn, hnil]
      rfl
    -- the head of `n.reverse` is the head of `l.dropWhile pyWS`, hence not WS
    obtain ⟨b, hb⟩ : ∃ b, (l.dropWhile pyWS).head? = some b := by
      cases hdw : l.dropWhile pyWS with
      | nil => exact absurd hdw hdwl
      | cons x xs => exact ⟨x, by simp [hdw]⟩
    have hbws : pyWS b = false := head?_dropWhile_false hb
    have hhead : n.reverse.head? = some b := by
      rw [List.head?_reverse, hn, getLast?_dropWhile _ _ (hn ▸ hne),
          List.getLast?_reverse]
      exact hb
    have h1 : n.reverse.dropWhile pyWS = n.reverse :=
      dropWhile_of_head?_false hhead hbws
    rw [h1, List.reverse_reverse, hn, dropWhile_dropWhile]

/-- The sanitizer's output carries no surrounding whitespace. -/
theorem pstrip_sanitize (l : List Char) : pstrip (sanitize l) = sanitize l :=
  pstrip_pstrip _

/-!  Response conformance: the checks under which an iteration completes
without raising (used for the termination claim, and to bound which traces a
run survives). -/

/-- The decision response yields an object with a numeric (or absent)
confidence, so `run`'s `.get` calls and the `:.2f` format succeed. -/
def decisionOk (r : Resp) : Bool :=
  match decide_next_action r with
  | .obj fs => (asNum (jget fs "confidence" (.num ((1 : ℚ)/2)))).isSome
  | _ => false

/-- The planning response is undecodable or an object whose `plan` value is
an (possibly absent, hence empty) array. -/
def planOk (r : Resp) : Bool :=
  match r with
  | .undecodable _ => true
  | .decoded (.obj fs) =>
      match jget fs "plan" (.arr []) with
      | .arr _ => true
      | _ => false
  | .decoded _ => false

/-- The execution response is undecodable or an object with a numeric (or
absent) `quality_score`. -/
def execOk (r : Resp) : Bool :=
  match r with
  | .undecodable _ => true
  | .decoded (.obj fs) => (asNum (jget fs "quality_score" (.num ((1 : ℚ)/2)))).isSome
  | .decoded _ => false

/-- The reflection response is undecodable or an object with a numeric (or
absent) `confidence_adjustment` and printable strengths/weaknesses. -/
def reflOk (r : Resp) : Bool :=
  match r with
  | .undecodable _ => true
  | .decoded (.obj fs) =>
      (asNum (jget fs "confidence_adjustment" (.num 0))).isSome &&
        sliceJoinOk (jget fs "strengths" (.arr [])) &&
        sliceJoinOk (jget fs "weaknesses" (.arr []))
  | .decoded _ => false

/-- All four potential responses of one iteration conform. -/
def wfEnv (e : IterEnv) : Bool :=
  decisionOk e.decision && planOk e.planResp && execOk e.execResp && reflOk e.reflResp

/-- A conformant planning response never makes `_handle_planning` raise. -/
theorem handle_planning_total (ir : Bool) (r : Resp) (st : EnhancedAgentState)
    (h : planOk r = true) : (handle_planning ir r st).isSome = true := by
  cases r with
  | undecodable raw => rfl
  | decoded j =>
      cases j with
      | obj fs =>
          simp only [planOk] at h
          simp only [handle_planning]
          split at h
          · rfl
          · exact absurd h (by simp)
      | null => simp [planOk] at h
      | bool b => simp [planOk] at h
      | num q => simp [planOk] at h
      | str s => simp [planOk] at h
      | arr xs => simp [planOk] at h

/-- Conformant planning and execution responses never make
`_handle_execution` raise. -/
theorem handle_execution_total (pr er : Resp) (st : EnhancedAgentState)
    (hp : planOk pr = true) (he : execOk er = true) :
    (handle_execution pr er st).isSome = true := by
  unfold handle_execution
  split
  · exact handle_planning_total false pr st hp
  · split
    · cases er with
      | undecodable raw => rfl
      | decoded j =>
          cases j with
          | obj fs =>
              simp only [execOk] at he
              obtain ⟨q, hq⟩ := Option.isSome_iff_exists.mp he
              simp only []
              rw [hq]
              rfl
          | null => simp [execOk] at he
          | bool b => simp [execOk] at he
          | num q => simp [execOk] at he
          | str s => simp [execOk] at he
          | arr xs => simp [execOk] at he
    · rfl

/-- A conformant reflection response never makes `_handle_reflection`
raise. -/
theorem handle_reflection_total (r : Resp) (st : EnhancedAgentState)
    (h : reflOk r = true) : (handle_reflection r st).isSome = true := by
  unfold handle_reflection
  split
  · rfl
  · cases r with
    | undecodable raw => rfl
    | decoded j =>
        cases j with
        | obj fs =>
            simp only [reflOk, Bool.and_eq_true] at h
            obtain ⟨⟨hadj, hstr⟩, hwk⟩ := h
            obtain ⟨q, hq⟩ := Option.isSome_iff_exists.mp hadj
            simp only []
            rw [hq]
            simp only []
            rw [hstr, hwk]
            rfl
        | null => simp [reflOk] at h
        | bool b => simp [reflOk] at h
        | num q => simp [reflOk] at h
        | str s => simp [reflOk] at h
        | arr xs => simp [reflOk] at h

/-- A fully conformant response bundle never makes an iteration raise. -/
theorem iterStep_total (e : IterEnv) (st : EnhancedAgentState)
    (h : wfEnv e = true) : (iterStep e st).isSome = true := by
  simp only [wfEnv, Bool.and_eq_true] at h
  obtain ⟨⟨⟨hdec, hpl⟩, hex⟩, hrf⟩ := h
  unfold iterStep
  split
  · rename_i fs hfs
    have hdec' : (asNum (jget fs "confidence" (.num ((1 : ℚ)/2)))).isSome = true := by
      unfold decisionOk at hdec
      rw [hfs] at hdec
      simpa only [] using hdec
    split
    · rename_i hnone
      rw [hnone] at hdec'
      simp at hdec'
    · simp only []
      split
      · simp [Option.isSome_map', handle_planning_total _ _ _ hpl]
      · split
        · simp [Option.isSome_map', handle_planning_total _ _ _ hpl]
        · split
          · simp [Option.isSome_map', handle_execution_total _ _ _ hpl hex]
          · split
            · simp [Option.isSome_map', handle_reflection_total _ _ hrf]
            · split
              · rfl
              · simp [Option.isSome_map', handle_reflection_total _ _ hrf]
  · rename_i hno
    exfalso
    unfold decisionOk at hdec
    cases hx : decide_next_action e.decision with
    | obj fs => exact hno fs hx
    | null => rw [hx] at hdec; simp at hdec
    | bool b => rw [hx] at hdec; simp at hdec
    | num q => rw [hx] at hdec; simp at hdec
    | str s => rw [hx] at hdec; simp at hdec
    | arr xs => rw [hx] at hdec; simp at hdec

/-- Planning preserves the plan-length invariant exactly when the installed
plan is empty or long enough for the already-completed tasks. -/
theorem planning_plan_inv {ir : Bool} {r : Resp} {st1 st' : EnhancedAgentState}
    (hp : handle_planning ir r st1 = some st')
    (hinv : st1.plan ≠ [] → st1.completed_tasks.length ≤ st1.plan.length)
    (hpl : ∀ xs, installedPlan r = some xs →
        xs = [] ∨ st1.completed_tasks.length ≤ xs.length) :
    st'.plan ≠ [] → st'.completed_tasks.length ≤ st'.plan.length := by
  rcases handle_planning_spec hp with rfl | ⟨xs, hinst, rfl⟩
  · exact hinv
  · intro hne
    simp only [] at hne ⊢
    rcases hpl xs hinst with rfl | hle
    · exact absurd rfl hne
    · exact hle

/-- One iteration preserves the plan-length invariant provided any plan it
installs is empty or at least as long as the completed-task list. -/
theorem iterStep_plan_inv {e : IterEnv} {st st' : EnhancedAgentState} {a : Json}
    {brk : Bool} (hstep : iterStep e st = some (st', a, brk))
    (hinv : st.plan ≠ [] → st.completed_tasks.length ≤ st.plan.length)
    (hpl : ∀ xs, installedPlan e.planResp = some xs →
        xs = [] ∨ st.completed_tasks.length ≤ xs.length) :
    st'.plan ≠ [] → st'.completed_tasks.length ≤ st'.plan.length := by
  obtain ⟨fs, conf, hfs, hact, hconf, hdisj⟩ := iterStep_spec hstep
  have hinv1 : ({ st with confidence_score := conf, status := a } :
      EnhancedAgentState).plan ≠ [] →
      ({ st with confidence_score := conf, status := a } :
        EnhancedAgentState).completed_tasks.length ≤
        ({ st with confidence_score := conf, status := a } :
          EnhancedAgentState).plan.length := by
    simpa only [] using hinv
  rcases hdisj with ⟨_, _, hp⟩ | ⟨_, _, hp⟩ | ⟨_, _, hp⟩ | ⟨_, hp⟩ | ⟨_, _, rfl⟩
  · exact planning_plan_inv hp hinv1 (by simpa only [] using hpl)
  · exact planning_plan_inv hp hinv1 (by simpa only [] using hpl)
  · rcases handle_execution_spec hp with ⟨hnil, hpp⟩ | ⟨_, _, rfl⟩ | ⟨tr, hlt, _, rfl⟩
    · exact planning_plan_inv hpp hinv1 (by simpa only [] using hpl)
    · exact hinv1
    · intro _
      simp only [] at hlt ⊢
      simp only [List.length_append, List.length_cons, List.length_nil]
      omega
  · rcases handle_reflection_spec hp with rfl | ⟨summ, adj, rfl⟩
    · exact hinv1
    · simpa only [] using hinv
  · simpa only [] using hinv

/-!  Claim theorems. -/

/-- C5: if the Controller's decision text fails to decode as JSON,
`decide_next_action` returns the documented default Decision, whose fields
include `action = "reflect"`, `confidence = 0.3` and `urgency = "medium"`. -/
theorem controller_decode_fallback (raw : String) :
    ∃ fs, decide_next_action (.undecodable raw) = .obj fs ∧
      jget fs "action" .null = .str "reflect" ∧
      jget fs "confidence" .null = .num ((3 : ℚ)/10) ∧
      jget fs "urgency" .null = .str "medium" :=
  ⟨_, rfl, rfl, rfl, rfl⟩

/-- C6: if the Plan Generator's response fails to decode as JSON during a
plan or replan action, `_handle_planning` returns the state completely
unchanged — in particular the existing Plan and `replan_count` are
retained. -/
theorem planning_decode_keeps_state (is_replan : Bool) (raw : String)
    (st : EnhancedAgentState) :
    handle_planning is_replan (.undecodable raw) st = some st := rfl

/-- C10: if the Plan Generator's response decodes as a JSON object that
lacks a `"plan"` key, `_handle_planning` replaces the Plan with the empty
list (`plan_data.get("plan", [])`), clearing a previously non-empty plan
even though no decode failure occurred. -/
theorem planning_missing_key_clears_plan (is_replan : Bool)
    (fs : List (String × Json)) (st : EnhancedAgentState)
    (hmiss : fs.lookup "plan" = none) (_hne : st.plan ≠ []) :
    handle_planning is_replan (.decoded (.obj fs)) st =
      some { st with
               plan := []
               replan_count := st.replan_count + (if is_replan then 1 else 0) } := by
  simp [handle_planning, jget, hmiss]

/-- Witness for C10 at a concrete state whose plan is non-empty. -/
theorem planning_missing_key_clears_plan_witness :
    handle_planning false (.decoded (.obj [("reasoning", .str "r")]))
        { initState "x" with plan := [.str "old task"] } =
      some { { initState "x" with plan := [.str "old task"] } with
               plan := []
               replan_count :=
                 ({ initState "x" with plan := [.str "old task"] }).replan_count +
                   (if false then 1 else 0) } :=
  planning_missing_key_clears_plan false _ _ rfl (List.cons_ne_nil _ _)

/-- C4: if the Completion Service's response to an actual task execution
fails to decode as JSON, `_handle_execution` appends exactly one TaskResult
whose `quality_score` is `0.3` and whose `results` is the raw sanitized
text, all other optional fields being absent — execution is never silently
dropped. -/
theorem execution_decode_fallback (planResp : Resp) (raw : String)
    (st : EnhancedAgentState)
    (h : st.completed_tasks.length < st.plan.length) :
    handle_execution planResp (.undecodable raw) st =
      some { st with completed_tasks := st.completed_tasks ++
        [{ task := st.plan.getD st.completed_tasks.length .null
           execution_process := none
           results := .str raw
           challenges := none
           quality_score := (3 : ℚ)/10
           recommendations := none }] } := by
  have hne : st.plan.isEmpty = false := by
    cases hp : st.plan
    · rw [hp] at h
      simp at h
    · simp [hp]
  unfold handle_execution
  rw [hne]
  simp only [Bool.false_eq_true, if_false]
  rw [dif_pos h]
  simp [List.getD_eq_getElem _ _ h, List.get_eq_getElem, List.getElem?_eq_getElem h]

/-- Witness for C4: one-task plan, nothing executed yet, undecodable
execution response. -/
theorem execution_decode_fallback_witness :
    handle_execution (.undecodable "p") (.undecodable "not json - oops")
        { initState "x" with plan := [.str "t1"] } =
      some { { initState "x" with plan := [.str "t1"] } with
               completed_tasks :=
                 ({ initState "x" with plan := [.str "t1"] }).completed_tasks ++
                   [{ task := ({ initState "x" with plan := [.str "t1"] }).plan.getD
                        ({ initState "x" with plan := [.str "t1"] }).completed_tasks.length .null
                      execution_process := none
                      results := .str "not json - oops"
                      challenges := none
                      quality_score := (3 : ℚ)/10
                      recommendations := none }] } :=
  execution_decode_fallback _ _ _ (by decide)

/-- C8: whenever `_handle_execution` appends a TaskResult it appends
exactly one, for the plan entry at index `len(completed_tasks)` taken at
the start of the action (plan order, no skipping); and when the plan is
non-empty with every entry already executed it changes nothing. -/
theorem execution_appends_in_plan_order {pr er : Resp}
    {st st' : EnhancedAgentState} (h : handle_execution pr er st = some st') :
    (st'.completed_tasks = st.completed_tasks ∨
       ∃ tr, st'.completed_tasks = st.completed_tasks ++ [tr] ∧
         st.completed_tasks.length < st.plan.length ∧
         tr.task = st.plan.getD st.completed_tasks.length .null) ∧
    (st.plan ≠ [] → st.plan.length ≤ st.completed_tasks.length → st' = st) := by
  rcases handle_execution_spec h with ⟨hnil, hp⟩ | ⟨hne, hle, rfl⟩ | ⟨tr, hlt, htask, rfl⟩
  · constructor
    · rcases handle_planning_spec hp with rfl | ⟨xs, _, rfl⟩
      · exact Or.inl rfl
      · exact Or.inl rfl
    · intro hcon
      exact absurd hnil hcon
  · exact ⟨Or.inl rfl, fun _ _ => rfl⟩
  · constructor
    · exact Or.inr ⟨tr, rfl, hlt, htask⟩
    · intro _ hle
      omega


/-- A response trace in which every Completion-Service call returns
undecodable text, so every iteration takes the default-reflect path. -/
def envAllFail : ℕ → IterEnv := fun _ =>
  { decision := .undecodable "d"
    planResp := .undecodable "p"
    execResp := .undecodable "e"
    reflResp := .undecodable "r" }

/-- The session state after one all-undecodable iteration: the default
decision records confidence `0.3` and status `reflect`; reflecting on the
empty history is skipped. -/
def oneFailState : EnhancedAgentState :=
  { objective := "x"
    plan := []
    completed_tasks := []
    reflection_history := []
    replan_count := 0
    current_focus := ""
    confidence_score := (3 : ℚ)/10
    status := .str "reflect" }

/-- C1 amended: after every iteration, `len(completed_tasks) <= len(plan)`
holds whenever the plan is non-empty, provided every plan actually installed
by a plan/replan (or bootstrap) action is empty or at least as long as the
completed-task list at that moment.  Execute actions preserve the invariant
unconditionally; a replan that installs a shorter non-empty plan breaks it
(see the counterexample). -/
theorem plan_length_invariant (env : ℕ → IterEnv) (obj : String)
    (hplan : ∀ n st xs, iterateN env obj n = some st →
        installedPlan ((env n).planResp) = some xs →
        xs = [] ∨ st.completed_tasks.length ≤ xs.length) :
    ∀ n st, iterateN env obj n = some st →
      st.plan ≠ [] → st.completed_tasks.length ≤ st.plan.length := by
  intro n
  induction n with
  | zero =>
      intro st h
      simp only [iterateN, Option.some.injEq] at h
      subst h
      intro hne
      exact absurd rfl hne
  | succ n ih =>
      intro st' h
      simp only [iterateN] at h
      cases hit : iterateN env obj n with
      | none =>
          rw [hit] at h
          exact absurd h (by simp)
      | some st =>
          rw [hit] at h
          obtain ⟨⟨st2, a, brk⟩, hstep, hx⟩ := Option.map_eq_some'.mp h
          simp only [] at hx
          subst hx
          exact iterStep_plan_inv hstep (ih st hit) (fun xs hxs => hplan n st xs hit hxs)

/-- Trace that plans two tasks on iteration 0 and then only fails. -/
def envPlanOnce : ℕ → IterEnv := fun n =>
  if n = 0 then
    { decision := .decoded (.obj [("action", .str "plan"), ("confidence", .num 1)])
      planResp := .decoded (.obj [("plan", .arr [.str "t1", .str "t2"])])
      execResp := .undecodable "e"
      reflResp := .undecodable "r" }
  else envAllFail n

/-- The session state after iteration 0 of `envPlanOnce`. -/
def planOnceState : EnhancedAgentState :=
  { objective := "x"
    plan := [.str "t1", .str "t2"]
    completed_tasks := []
    reflection_history := []
    replan_count := 0
    current_focus := ""
    confidence_score := 1
    status := .str "plan" }

/-- Witness for the amended C1 on a reachable state with a non-empty plan. -/
theorem plan_length_invariant_witness :
    planOnceState.completed_tasks.length ≤ planOnceState.plan.length :=
  plan_length_invariant envPlanOnce "x"
    (fun n st xs h1 h2 => by
      cases n with
      | zero =>
          simp only [iterateN, Option.some.injEq] at h1
          subst h1
          exact Or.inr (Nat.zero_le _)
      | succ m => simp [envPlanOnce, envAllFail, installedPlan] at h2)
    1 planOnceState rfl (List.cons_ne_nil _ _)

/-- The decision `{action: a, confidence: 1}` decoded from the controller. -/
def planDecision (a : String) : Resp :=
  .decoded (.obj [("action", .str a), ("confidence", .num 1)])

/-- Trace for the C1 counterexample: plan two tasks, execute both, then
replan down to a single task while the two completed tasks are retained. -/
def envShrinkingReplan : ℕ → IterEnv := fun n =>
  if n = 0 then
    { decision := planDecision "plan"
      planResp := .decoded (.obj [("plan", .arr [.str "t1", .str "t2"])])
      execResp := .undecodable "e"
      reflResp := .undecodable "r" }
  else if n = 3 then
    { decision := planDecision "replan"
      planResp := .decoded (.obj [("plan", .arr [.str "n1"])])
      execResp := .undecodable "e"
      reflResp := .undecodable "r" }
  else
    { decision := planDecision "execute"
      planResp := .undecodable "p"
      execResp := .decoded (.obj [("quality_score", .num 1)])
      reflResp := .undecodable "r" }

/-- C1 counterexample: after plan(2 tasks), execute, execute, replan(1 task),
the reachable state has a non-empty plan of length 1 but 2 completed tasks —
`len(completed_tasks) <= len(plan)` fails, because replan replaces the plan
wholesale while `completed_tasks` is retained. -/
theorem replan_shrinks_plan_below_completed :
    (iterateN envShrinkingReplan "x" 4).map
        (fun st => (st.plan.length, st.completed_tasks.length)) = some (1, 2) ∧
      ¬ (2 ≤ 1) :=
  ⟨rfl, by norm_num⟩

/-- One iteration leaves `confidence_score` in `[0,1]` provided the decision
confidence it records lies in `[0,1]` (a reflection's adjustment is clamped
unconditionally). -/
theorem iterStep_conf_bounds {e : IterEnv} {st st' : EnhancedAgentState}
    {a : Json} {brk : Bool} (hstep : iterStep e st = some (st', a, brk))
    (hq : ∀ q, recordedConfidence e = some q → 0 ≤ q ∧ q ≤ 1) :
    0 ≤ st'.confidence_score ∧ st'.confidence_score ≤ 1 := by
  obtain ⟨fs, conf, hfs, hact, hconf, hdisj⟩ := iterStep_spec hstep
  have hrc : recordedConfidence e = some conf := by
    unfold recordedConfidence
    rw [hfs]
    exact hconf
  have hb := hq conf hrc
  have hcases : st'.confidence_score = conf ∨
      ∃ x, st'.confidence_score = max 0 (min 1 x) := by
    rcases hdisj with ⟨_, _, hp⟩ | ⟨_, _, hp⟩ | ⟨_, _, hp⟩ | ⟨_, hp⟩ | ⟨_, _, rfl⟩
    · rcases handle_planning_spec hp with rfl | ⟨xs, _, rfl⟩ <;> exact Or.inl rfl
    · rcases handle_planning_spec hp with rfl | ⟨xs, _, rfl⟩ <;> exact Or.inl rfl
    · rcases handle_execution_spec hp with ⟨_, hpp⟩ | ⟨_, _, rfl⟩ | ⟨tr, _, _, rfl⟩
      · rcases handle_planning_spec hpp with rfl | ⟨xs, _, rfl⟩ <;> exact Or.inl rfl
      · exact Or.inl rfl
      · exact Or.inl rfl
    · rcases handle_reflection_spec hp with rfl | ⟨summ, adj, rfl⟩
      · exact Or.inl rfl
      · exact Or.inr ⟨_, rfl⟩
    · exact Or.inl rfl
  rcases hcases with hc | ⟨x, hc⟩
  · rw [hc]
    exact hb
  · rw [hc]
    exact ⟨le_max_left 0 _, max_le (by norm_num) (min_le_left 1 _)⟩

/-- C2 amended: after every iteration `confidence_score` lies in `[0,1]`,
provided every decision confidence the loop records lies in `[0,1]` — the
reflection update clamps unconditionally, but `run` assigns the decision's
confidence without clamping (see the counterexample). -/
theorem confidence_score_in_unit (env : ℕ → IterEnv) (obj : String)
    (hconf : ∀ n q, recordedConfidence (env n) = some q → 0 ≤ q ∧ q ≤ 1) :
    ∀ n st, iterateN env obj n = some st →
      0 ≤ st.confidence_score ∧ st.confidence_score ≤ 1 := by
  intro n
  cases n with
  | zero =>
      intro st h
      simp only [iterateN, Option.some.injEq] at h
      subst h
      exact ⟨le_refl 0, zero_le_one⟩
  | succ n =>
      intro st' h
      simp only [iterateN] at h
      cases hit : iterateN env obj n with
      | none =>
          rw [hit] at h
          exact absurd h (by simp)
      | some st =>
          rw [hit] at h
          obtain ⟨⟨st2, a, brk⟩, hstep, hx⟩ := Option.map_eq_some'.mp h
          simp only [] at hx
          subst hx
          exact iterStep_conf_bounds hstep (fun q hq' => hconf n q hq')

/-- Witness for the amended C2 after one all-undecodable iteration. -/
theorem confidence_score_in_unit_witness :
    0 ≤ oneFailState.confidence_score ∧ oneFailState.confidence_score ≤ 1 :=
  confidence_score_in_unit envAllFail "x"
    (fun n q h => by
      have hr : recordedConfidence (envAllFail n) = some ((3 : ℚ)/10) := rfl
      rw [hr] at h
      rw [← Option.some.inj h]
      norm_num)
    1 oneFailState rfl

/-- Trace for the C2 counterexample: the controller's decision decodes with
`confidence: 2`. -/
def envBigConf : ℕ → IterEnv := fun _ =>
  { decision := .decoded (.obj [("action", .str "reflect"), ("confidence", .num 2)])
    planResp := .undecodable "p"
    execResp := .undecodable "e"
    reflResp := .undecodable "r" }

/-- C2 counterexample: `run` assigns the decision's confidence to
`confidence_score` without clamping, so a decoded confidence of 2 leaves the
reachable state with `confidence_score = 2`, outside `[0,1]`. -/
theorem confidence_not_clamped :
    (iterateN envBigConf "x" 1).map (fun st => st.confidence_score) = some 2 ∧
      ¬ ((2 : ℚ) ≤ 1) :=
  ⟨rfl, by norm_num⟩

/-- C9 amended: an iteration whose decision is `reflect` while
`completed_tasks` is empty appends no ReflectionRecord and leaves plan,
completed tasks and `replan_count` untouched; but `confidence_score` is
overwritten with the Decision's confidence by step 2 of the iteration (it is
unchanged by the reflection handler itself, not by the iteration). -/
theorem reflect_empty_history_frame (e : IterEnv) (st st' : EnhancedAgentState)
    (a : Json) (brk : Bool) (hstep : iterStep e st = some (st', a, brk))
    (ha : actionOf e = some (.str "reflect"))
    (hemp : st.completed_tasks = []) :
    st'.reflection_history = st.reflection_history ∧
      st'.completed_tasks = [] ∧
      st'.plan = st.plan ∧
      st'.replan_count = st.replan_count ∧
      ∃ q, recordedConfidence e = some q ∧ st'.confidence_score = q := by
  obtain ⟨fs, conf, hfs, hact, hconf, hdisj⟩ := iterStep_spec hstep
  have ha' : jget fs "action" (.str "reflect") = .str "reflect" := by
    unfold actionOf at ha
    rw [hfs] at ha
    exact Option.some.inj ha
  have hrc : recordedConfidence e = some conf := by
    unfold recordedConfidence
    rw [hfs]
    exact hconf
  rw [ha'] at hact
  subst hact
  rcases hdisj with ⟨hbad, _, _⟩ | ⟨hbad, _, _⟩ | ⟨hbad, _, _⟩ | ⟨_, hp⟩ | ⟨hbad, _, _⟩
  · exact absurd hbad (by decide)
  · exact absurd hbad (by decide)
  · exact absurd hbad (by decide)
  · have hself : handle_reflection e.reflResp
        { st with confidence_score := conf, status := .str "reflect" } =
        some { st with confidence_score := conf, status := .str "reflect" } := by
      unfold handle_reflection
      rw [if_pos]
      simp only []
      rw [hemp]
      rfl
    rw [hself] at hp
    rw [← Option.some.inj hp]
    exact ⟨rfl, hemp, rfl, rfl, conf, hrc, rfl⟩
  · exact absurd hbad (by decide)

/-- Witness for the amended C9 after one all-undecodable iteration. -/
theorem reflect_empty_history_frame_witness :
    oneFailState.reflection_history = (initState "x").reflection_history ∧
      oneFailState.completed_tasks = [] ∧
      oneFailState.plan = (initState "x").plan ∧
      oneFailState.replan_count = (initState "x").replan_count ∧
      ∃ q, recordedConfidence (envAllFail 0) = some q ∧
        oneFailState.confidence_score = q :=
  reflect_empty_history_frame (envAllFail 0) (initState "x") oneFailState
    (.str "reflect") false rfl rfl rfl

/-- Trace for the C9 counterexample: the decision is `reflect` with
confidence 1 on a fresh state. -/
def envReflectConf1 : ℕ → IterEnv := fun _ =>
  { decision := .decoded (.obj [("action", .str "reflect"), ("confidence", .num 1)])
    planResp := .undecodable "p"
    execResp := .undecodable "e"
    reflResp := .undecodable "r" }

/-- C9 counterexample: a `reflect` decision on an empty history appends no
ReflectionRecord, yet the iteration changes `confidence_score` from 0 to the
decision's confidence 1 — the iteration is not a no-op on
`confidence_score`. -/
theorem reflect_iteration_changes_confidence :
    (iterateN envReflectConf1 "x" 1).map
        (fun st => (st.reflection_history.length, st.confidence_score)) =
      some (0, 1) ∧
    (initState "x").confidence_score = 0 ∧ ¬ ((1 : ℚ) = 0) :=
  ⟨rfl, rfl, by norm_num⟩

/-- Witness for C8 at a concrete state: empty plan, so execution
bootstraps planning (here itself a decode failure) and appends nothing. -/
theorem execution_appends_in_plan_order_witness :
    ((initState "w").completed_tasks = (initState "w").completed_tasks ∨
       ∃ tr, (initState "w").completed_tasks = (initState "w").completed_tasks ++ [tr] ∧
         (initState "w").completed_tasks.length < (initState "w").plan.length ∧
         tr.task = (initState "w").plan.getD (initState "w").completed_tasks.length .null) :=
  (@execution_appends_in_plan_order (.undecodable "p") (.undecodable "e")
    (initState "w") (initState "w") rfl).1

/-- C7 counterexample: on the input of six backticks followed by `x`, one
sanitizer pass yields a fence marker followed by `x`, and a second pass
strips that fence again, so sanitizing twice differs from sanitizing once. -/
theorem sanitize_not_idempotent :
    sanitize (sanitize (List.replicate 6 btick ++ ['x'])) ≠
      sanitize (List.replicate 6 btick ++ ['x']) := by decide

/-- C7 amended: the sanitizer is idempotent on every input whose sanitized
form neither starts nor ends with a fence marker; re-sanitizing such text
returns it unchanged.  (When stripping one fence exposes another, as in the
counterexample, a second pass strips further.) -/
theorem sanitize_idempotent_of_no_exposed_fence (s : List Char)
    (h1 : (sanitize s).take 3 ≠ fenceMark)
    (h2 : (sanitize s).reverse.take 3 ≠ fenceMark) :
    sanitize (sanitize s) = sanitize s :=
  calc sanitize (sanitize s)
      = pstrip (stripTrailFence (stripLeadFence (pstrip (sanitize s)))) := rfl
    _ = pstrip (stripTrailFence (stripLeadFence (sanitize s))) := by
          rw [pstrip_sanitize]
    _ = pstrip (stripTrailFence (sanitize s)) := by
          unfold stripLeadFence
          rw [if_neg h1]
    _ = pstrip (sanitize s) := by
          unfold stripTrailFence
          rw [if_neg h2]
    _ = sanitize s := pstrip_sanitize s

/-- Witness for the amended C7 on a concrete fenced input whose sanitized
form is plain text. -/
theorem sanitize_idempotent_witness :
    sanitize (sanitize (fenceMark ++ ['h', 'i'] ++ fenceMark)) =
      sanitize (fenceMark ++ ['h', 'i'] ++ fenceMark) :=
  sanitize_idempotent_of_no_exposed_fence _ (by decide) (by decide)

/-- No iteration changes the objective. -/
theorem iterStep_objective {e : IterEnv} {st st' : EnhancedAgentState}
    {a : Json} {brk : Bool} (h : iterStep e st = some (st', a, brk)) :
    st'.objective = st.objective := by
  obtain ⟨fs, conf, hfs, hact, hconf, hdisj⟩ := iterStep_spec h
  rcases hdisj with ⟨_, _, hp⟩ | ⟨_, _, hp⟩ | ⟨_, _, hp⟩ | ⟨_, hp⟩ | ⟨_, _, rfl⟩
  · rcases handle_planning_spec hp with rfl | ⟨xs, _, rfl⟩ <;> rfl
  · rcases handle_planning_spec hp with rfl | ⟨xs, _, rfl⟩ <;> rfl
  · rcases handle_execution_spec hp with ⟨_, hpp⟩ | ⟨_, _, rfl⟩ | ⟨tr, _, _, rfl⟩
    · rcases handle_planning_spec hpp with rfl | ⟨xs, _, rfl⟩ <;> rfl
    · rfl
    · rfl
  · rcases handle_reflection_spec hp with rfl | ⟨summ, adj, rfl⟩ <;> rfl
  · rfl

/-- The loop of `run` always yields a result when every response conforms
and either an iteration already ran (`action` is bound) or at least one
iteration remains. -/
theorem runLoop_total (env : ℕ → IterEnv) (hwf : ∀ k, wfEnv (env k) = true) :
    ∀ (fuel : ℕ) (st : EnhancedAgentState) (used : ℕ) (la : Option Json),
      (la.isSome = true ∨ 0 < fuel) →
      ∃ r, runLoop env st fuel used la = some r ∧
        r.iterations_used ≤ used + fuel ∧ r.objective = st.objective ∧
        (r.status = "completed" ∨ r.status = "max_iterations_reached") := by
  intro fuel
  induction fuel with
  | zero =>
      intro st used la hla
      rcases hla with hla | hlt
      · obtain ⟨a, ha⟩ := Option.isSome_iff_exists.mp hla
        subst ha
        refine ⟨mkResult st used a, rfl, le_refl _, rfl, ?_⟩
        unfold mkResult
        by_cases hx : isStrEq a "complete" = true
        · rw [if_pos hx]
          exact Or.inl rfl
        · rw [if_neg hx]
          exact Or.inr rfl
      · exact absurd hlt (by omega)
  | succ f ih =>
      intro st used la _
      obtain ⟨⟨st', a, brk⟩, hstep⟩ :=
        Option.isSome_iff_exists.mp (iterStep_total (env used) st (hwf used))
      have hobj : st'.objective = st.objective := iterStep_objective hstep
      unfold runLoop
      rw [hstep]
      cases brk with
      | true =>
          refine ⟨mkResult st' (used + 1) a, rfl,
            (by omega : used + 1 ≤ used + (f + 1)), hobj, ?_⟩
          unfold mkResult
          by_cases hx : isStrEq a "complete" = true
          · rw [if_pos hx]
            exact Or.inl rfl
          · rw [if_neg hx]
            exact Or.inr rfl
      | false =>
          obtain ⟨r, hr, hle, hro, hrs⟩ :=
            ih st' (used + 1) (some a) (Or.inl rfl)
          exact ⟨r, hr, by omega, hro.trans hobj, hrs⟩

/-- C3 amended: for `max_iterations >= 1` and any response trace in which
every response either fails to decode or decodes to an object with
schema-conformant field types, `run` terminates within `max_iterations`
dispatch cycles and returns a well-formed result record with
`iterations_used <= max_iterations`, `objective` echoed back, and `status`
either `"completed"` or `"max_iterations_reached"`.  (For
`max_iterations <= 0` the loop body never runs and building the record
raises UnboundLocalError — see the counterexample.) -/
theorem run_returns_record (env : ℕ → IterEnv) (obj : String)
    (max_iterations : ℤ) (hpos : 1 ≤ max_iterations)
    (hwf : ∀ k, wfEnv (env k) = true) :
    ∃ r, run env obj max_iterations = some r ∧
      (r.iterations_used : ℤ) ≤ max_iterations ∧
      r.objective = obj ∧
      (r.status = "completed" ∨ r.status = "max_iterations_reached") := by
  obtain ⟨r, hr, hle, hro, hrs⟩ :=
    runLoop_total env hwf max_iterations.toNat (initState obj) 0 none
      (Or.inr (by omega))
  exact ⟨r, hr, by omega, hro, hrs⟩

/-- Witness for the amended C3 on the all-undecodable trace with a budget of
two iterations. -/
theorem run_returns_record_witness :
    ∃ r, run envAllFail "x" 2 = some r ∧
      (r.iterations_used : ℤ) ≤ 2 ∧
      r.objective = "x" ∧
      (r.status = "completed" ∨ r.status = "max_iterations_reached") :=
  run_returns_record envAllFail "x" 2 (by norm_num) (fun _ => rfl)

/-- C3 counterexample: with `max_iterations = 0` the loop body never runs,
the local variable `action` is never bound, and the final result
construction raises UnboundLocalError — `run` returns no record at all
(modelled as `none`), for any response trace. -/
theorem run_zero_budget_no_record : run envAllFail "x" 0 = none := rfl

end PlanAgent
